import Mathlib

/-!
Shallow embedding of the RAG chatbot pipeline
(`config/settings.py`, `src/vector_store.py`, `src/retriever.py`,
`src/text_processor.py`, `src/chatbot.py`).

External collaborators (the vector index, the embedding service, the
language-model API, the langchain retriever objects) are modelled as pure
oracle functions stored in the corresponding structures; the repository's
own control flow is translated line by line.  A Python function that can
`raise` is given return type `Except String _`; a caught exception is the
`Except.error` branch of the callee's result.
-/

/-- A Python metadata value as used in this code base: either a string
(`source`) or an integer (`chunk_id`, `chunk_size`). -/
inductive PyVal where
  | str (s : String)
  | int (n : Int)
  deriving DecidableEq, Repr

/-- Python `dict` lookup on an insertion-ordered association list. -/
def dictGet : List (String × PyVal) → String → Option PyVal
  | [], _ => none
  | p :: m, k => if p.1 = k then some p.2 else dictGet m k

/-- Python `dict` update of a single key: overwrite in place if the key is
present, append otherwise (insertion order preserved). -/
def dictSet (m : List (String × PyVal)) (k : String) (v : PyVal) : List (String × PyVal) :=
  if m.any (fun p => p.1 = k) then
    m.map (fun p => if p.1 = k then (k, v) else p)
  else
    m ++ [(k, v)]

/-- `langchain.docstore.document.Document`: page content plus a metadata
dictionary. -/
structure Document where
  page_content : String
  metadata : List (String × PyVal)
  deriving DecidableEq, Repr

/-- `config/settings.py`: the `Settings` object (the fields the claims
touch; the API key is environment-sourced and irrelevant here). -/
structure Settings where
  CHAT_MODEL : String
  EMBEDDING_MODEL : String
  VECTOR_STORE_TYPE : String
  CHUNK_SIZE : Nat
  CHUNK_OVERLAP : Nat
  RETRIEVAL_K : Nat

def settings : Settings :=
  { CHAT_MODEL := "gpt-3.5-turbo"
    EMBEDDING_MODEL := "text-embedding-ada-002"
    VECTOR_STORE_TYPE := "chroma"
    CHUNK_SIZE := 1000
    CHUNK_OVERLAP := 100
    RETRIEVAL_K := 4 }

/-- The external vector index (Chroma/FAISS object held in
`VectorStoreManager.vector_store`): its search entry points are oracles.
Scores are distances, modelled as rationals. -/
structure VectorStore where
  search : String → Nat → List Document
  search_with_score : String → Nat → List (Document × ℚ)

/-- `src/vector_store.py`: `VectorStoreManager`.  `vector_store is None`
is the Empty state; `some` is the Populated state.  The embeddings client
is an external object with no bearing on the claims. -/
structure VectorStoreManager where
  vector_store : Option VectorStore

/-- Python `k = k or settings.RETRIEVAL_K`: `None` and `0` are both falsy,
so either is replaced by the configured default. -/
def defaultK : Option Nat → Nat
  | none => settings.RETRIEVAL_K
  | some v => if v = 0 then settings.RETRIEVAL_K else v

/-- `VectorStoreManager.similarity_search`: empty store returns `[]`
(a normal return, not an exception), otherwise the index is queried with
the (defaulted) `k`. -/
def similarity_search (m : VectorStoreManager) (query : String) (k : Option Nat) :
    Except String (List Document) :=
  match m.vector_store with
  | none => .ok []
  | some vs => .ok (vs.search query (defaultK k))

/-- `VectorStoreManager.similarity_search_with_score`: same shape as
`similarity_search`, but each hit carries its distance score. -/
def similarity_search_with_score (m : VectorStoreManager) (query : String) (k : Option Nat) :
    Except String (List (Document × ℚ)) :=
  match m.vector_store with
  | none => .ok []
  | some vs => .ok (vs.search_with_score query (defaultK k))

/-- The object returned by `vector_store.as_retriever(search_kwargs={"k": k})`:
a search interface over the index, bound to a fixed `k`. -/
structure BoundRetriever where
  store : VectorStore
  k : Nat

/-- langchain's `VectorStoreRetriever.get_relevant_documents`: a similarity
search with the bound `k`. -/
def BoundRetriever.get_relevant_documents (r : BoundRetriever) (query : String) :
    List Document :=
  r.store.search query r.k

/-- `VectorStoreManager.get_retriever`: raises `ValueError("Vector store is
empty")` in the Empty state; otherwise returns the index's retriever bound
to the requested `k` (`search_kwargs or {"k": settings.RETRIEVAL_K}`: a
missing/falsy kwargs dict defaults the bound `k`). -/
def get_retriever (m : VectorStoreManager) (search_kwargs : Option Nat) :
    Except String BoundRetriever :=
  match m.vector_store with
  | none => .error "Vector store is empty"
  | some vs =>
    .ok { store := vs, k := match search_kwargs with
                            | none => settings.RETRIEVAL_K
                            | some k => k }

/-- C7: `similarity_search` on a manager in the Empty state returns the
empty document list for every query and every `k`, as a normal result
(never an exception). -/
theorem similarity_search_empty (query : String) (k : Option Nat) :
    similarity_search { vector_store := none } query k = .ok [] := rfl

/-- C8: `get_retriever` on an Empty manager fails with the
"Vector store is empty" error; on a Populated manager it returns a search
interface over that store bound to the requested `k`, defaulting to
`settings.RETRIEVAL_K` when no `k` is requested. -/
theorem get_retriever_spec :
    (∀ kw : Option Nat,
        get_retriever { vector_store := none } kw = .error "Vector store is empty") ∧
    (∀ (vs : VectorStore) (kw : Nat),
        get_retriever { vector_store := some vs } (some kw) =
          .ok { store := vs, k := kw }) ∧
    (∀ vs : VectorStore,
        get_retriever { vector_store := some vs } none =
          .ok { store := vs, k := settings.RETRIEVAL_K }) :=
  ⟨fun _ => rfl, fun _ _ => rfl, fun _ => rfl⟩

/-- The `ContextualCompressionRetriever` built in `_setup_retrievers`: its
LLM-backed `get_relevant_documents` is an external oracle. -/
structure CompressionRetriever where
  get_relevant_documents : String → List Document

/-- `src/retriever.py`: `DocumentRetriever`.  `base_retriever` and
`compression_retriever` are `None` exactly when `_setup_retrievers` failed
(the manager's `get_retriever` raised on an empty store). -/
structure DocumentRetriever where
  vector_store_manager : VectorStoreManager
  base_retriever : Option BoundRetriever
  compression_retriever : Option CompressionRetriever

/-- Loop body of `_deduplicate_documents`: `seen` is the set of content
hashes already kept.  `h` stands for the run's Python string hash. -/
def dedupGo (h : String → Int) (seen : List Int) : List Document → List Document
  | [] => []
  | d :: ds =>
    if h d.page_content ∈ seen then
      dedupGo h seen ds
    else
      d :: dedupGo h (h d.page_content :: seen) ds

/-- `DocumentRetriever._deduplicate_documents`: drop every document whose
`hash(page_content)` was already seen, keeping first occurrences. -/
def deduplicate_documents (h : String → Int) (documents : List Document) : List Document :=
  dedupGo h [] documents

/-- `DocumentRetriever._similarity_retrieval`: delegate to the base
retriever. -/
def similarity_retrieval (br : BoundRetriever) (query : String) : List Document :=
  br.get_relevant_documents query

/-- `DocumentRetriever._compression_retrieval`: fall back to plain
similarity retrieval when the compression retriever was never set up. -/
def compression_retrieval (r : DocumentRetriever) (br : BoundRetriever) (query : String) :
    List Document :=
  match r.compression_retriever with
  | none => similarity_retrieval br query
  | some cr => cr.get_relevant_documents query

/-- `DocumentRetriever._hybrid_retrieval`: similarity results, plus
score-filtered results (strict `score < 0.7`), deduplicated, truncated to
`settings.RETRIEVAL_K`. -/
def hybrid_retrieval (h : String → Int) (r : DocumentRetriever) (br : BoundRetriever)
    (query : String) : Except String (List Document) := do
  let similarity_docs := similarity_retrieval br query
  let scored_docs ← similarity_search_with_score r.vector_store_manager query none
  let score_threshold : ℚ := 7 / 10
  let filtered_docs := (scored_docs.filter (fun p => p.2 < score_threshold)).map (fun p => p.1)
  let all_docs := similarity_docs ++ filtered_docs
  let unique_docs := deduplicate_documents h all_docs
  pure (unique_docs.take settings.RETRIEVAL_K)

/-- The `try:` body of `retrieve_documents`: dispatch on the strategy name,
raising `ValueError("Unknown retrieval method: ...")` for any other name. -/
def retrieve_documents_body (h : String → Int) (r : DocumentRetriever) (br : BoundRetriever)
    (query method : String) : Except String (List Document) :=
  if method = "similarity" then
    .ok (similarity_retrieval br query)
  else if method = "compression" then
    .ok (compression_retrieval r br query)
  else if method = "hybrid" then
    hybrid_retrieval h r br query
  else
    .error ("Unknown retrieval method: " ++ method)

/-- `DocumentRetriever.retrieve_documents`: `[]` when no base retriever is
available; otherwise run the dispatch body, degrading any raised exception
to `[]` (the `except Exception` arm). -/
def retrieve_documents (h : String → Int) (r : DocumentRetriever) (query method : String) :
    List Document :=
  match r.base_retriever with
  | none => []
  | some br =>
    match retrieve_documents_body h r br query method with
    | .ok docs => docs
    | .error _ => []

/-- Inner loop of `retrieve_with_metadata_filter`: `match` stays `True` iff
every filter key is present in the document's metadata with an equal
value (the loop breaks at the first mismatch). -/
def metadataMatches (d : Document) : List (String × PyVal) → Bool
  | [] => true
  | (k, v) :: rest =>
    match dictGet d.metadata k with
    | none => false
    | some w => if w = v then metadataMatches d rest else false

/-- `DocumentRetriever.retrieve_with_metadata_filter`: retrieve with the
default `"similarity"` method, then keep the documents matching the
metadata filter. -/
def retrieve_with_metadata_filter (h : String → Int) (r : DocumentRetriever)
    (query : String) (metadata_filter : List (String × PyVal)) : List Document :=
  let all_docs := retrieve_documents h r query "similarity"
  all_docs.filter (fun d => metadataMatches d metadata_filter)

/-- `DocumentRetriever.get_document_sources`: the distinct `source`
metadata values of the given documents.  The source builds a Python `set`,
whose iteration order is unspecified; first-occurrence order is used
here as one concrete representative. -/
def get_document_sources (documents : List Document) : List PyVal :=
  documents.foldl
    (fun acc d =>
      match dictGet d.metadata "source" with
      | none => acc
      | some v => if v ∈ acc then acc else acc ++ [v])
    []

/-- Reference form of the dedup loop with the seen-set holding the content
strings themselves; `dedupGo` coincides with it whenever the hash is
collision-free on the strings involved. -/
def dedupStrGo (seen : List String) : List Document → List Document
  | [] => []
  | d :: ds =>
    if d.page_content ∈ seen then
      dedupStrGo seen ds
    else
      d :: dedupStrGo (d.page_content :: seen) ds

lemma dedupGo_eq_dedupStrGo (h : String → Int) (S : List String) (l : List Document)
    (hc : ∀ a b : String, (a ∈ S ∨ a ∈ l.map Document.page_content) →
      (b ∈ S ∨ b ∈ l.map Document.page_content) → h a = h b → a = b) :
    dedupGo h (S.map h) l = dedupStrGo S l := by
  induction l generalizing S with
  | nil => rfl
  | cons d ds ih =>
    have hmem : h d.page_content ∈ S.map h ↔ d.page_content ∈ S := by
      constructor
      · intro hm
        rcases List.mem_map.mp hm with ⟨s, hs, hse⟩
        have hsd : s = d.page_content :=
          hc s d.page_content (Or.inl hs)
            (Or.inr (by simp)) hse
        rwa [hsd] at hs
      · intro hm
        exact List.mem_map_of_mem h hm
    have hc' : ∀ a b : String, (a ∈ S ∨ a ∈ ds.map Document.page_content) →
        (b ∈ S ∨ b ∈ ds.map Document.page_content) → h a = h b → a = b := by
      intro a b ha hb hab
      refine hc a b ?_ ?_ hab
      · rcases ha with ha | ha
        · exact Or.inl ha
        · exact Or.inr (by simp [ha])
      · rcases hb with hb | hb
        · exact Or.inl hb
        · exact Or.inr (by simp [hb])
    by_cases hd : d.page_content ∈ S
    · rw [dedupGo, dedupStrGo, if_pos (hmem.mpr hd), if_pos hd]
      exact ih S hc'
    · rw [dedupGo, dedupStrGo, if_neg (fun hx => hd (hmem.mp hx)), if_neg hd]
      have : (d.page_content :: S).map h = h d.page_content :: S.map h := rfl
      rw [← this]
      refine congrArg (d :: ·) (ih (d.page_content :: S) ?_)
      intro a b ha hb hab
      refine hc a b ?_ ?_ hab
      · rcases ha with ha | ha
        · rcases List.mem_cons.mp ha with ha | ha
          · exact Or.inr (by simp [ha])
          · exact Or.inl ha
        · exact Or.inr (by simp [ha])
      · rcases hb with hb | hb
        · rcases List.mem_cons.mp hb with hb | hb
          · exact Or.inr (by simp [hb])
          · exact Or.inl hb
        · exact Or.inr (by simp [hb])

lemma dedupStrGo_sublist (S : List String) (l : List Document) :
    List.Sublist (dedupStrGo S l) l := by
  induction l generalizing S with
  | nil => exact List.Sublist.refl _
  | cons d ds ih =>
    rw [dedupStrGo]
    by_cases hd : d.page_content ∈ S
    · rw [if_pos hd]
      exact (ih S).cons d
    · rw [if_neg hd]
      exact (ih (d.page_content :: S)).cons₂ d

lemma dedupStrGo_content_notin_seen (S : List String) (l : List Document) :
    ∀ d ∈ dedupStrGo S l, d.page_content ∉ S := by
  induction l generalizing S with
  | nil => intro d hd; simp [dedupStrGo] at hd
  | cons d ds ih =>
    intro e he
    rw [dedupStrGo] at he
    by_cases hd : d.page_content ∈ S
    · rw [if_pos hd] at he
      exact ih S e he
    · rw [if_neg hd] at he
      rcases List.mem_cons.mp he with he | he
      · rw [he]; exact hd
      · have := ih (d.page_content :: S) e he
        intro hx
        exact this (List.mem_cons_of_mem _ hx)

lemma dedupStrGo_nodup (S : List String) (l : List Document) :
    ((dedupStrGo S l).map Document.page_content).Nodup := by
  induction l generalizing S with
  | nil => simp [dedupStrGo]
  | cons d ds ih =>
    rw [dedupStrGo]
    by_cases hd : d.page_content ∈ S
    · rw [if_pos hd]; exact ih S
    · rw [if_neg hd]
      rw [List.map_cons, List.nodup_cons]
      refine ⟨?_, ih (d.page_content :: S)⟩
      intro hx
      rcases List.mem_map.mp hx with ⟨e, he, hc⟩
      have := dedupStrGo_content_notin_seen (d.page_content :: S) ds e he
      exact this (by rw [hc]; exact List.mem_cons_self _ _)

lemma mem_dedupStrGo_contents (S : List String) (l : List Document) (s : String) :
    s ∈ (dedupStrGo S l).map Document.page_content ↔
      s ∈ l.map Document.page_content ∧ s ∉ S := by
  induction l generalizing S with
  | nil => simp [dedupStrGo]
  | cons d ds ih =>
    rw [dedupStrGo]
    by_cases hd : d.page_content ∈ S
    · rw [if_pos hd]
      rw [ih S, List.map_cons, List.mem_cons]
      constructor
      · rintro ⟨hs, hns⟩; exact ⟨Or.inr hs, hns⟩
      · rintro ⟨hs | hs, hns⟩
        · exact absurd (hs ▸ hd) hns
        · exact ⟨hs, hns⟩
    · rw [if_neg hd]
      rw [List.map_cons, List.mem_cons, List.map_cons, List.mem_cons,
        ih (d.page_content :: S)]
      constructor
      · rintro (hs | ⟨hs, hns⟩)
        · exact ⟨Or.inl hs, hs ▸ hd⟩
        · exact ⟨Or.inr hs, fun hx => hns (List.mem_cons_of_mem _ hx)⟩
      · rintro ⟨hs | hs, hns⟩
        · exact Or.inl hs
        · by_cases hds : s = d.page_content
          · exact Or.inl hds
          · exact Or.inr ⟨hs, by
              intro hx
              rcases List.mem_cons.mp hx with hx | hx
              · exact hds hx
              · exact hns hx⟩

lemma dedupStrGo_find? (S : List String) (l : List Document) (s : String)
    (hs : s ∉ S) :
    (dedupStrGo S l).find? (fun d => d.page_content == s) =
      l.find? (fun d => d.page_content == s) := by
  induction l generalizing S with
  | nil => rfl
  | cons d ds ih =>
    rw [dedupStrGo]
    by_cases hd : d.page_content ∈ S
    · rw [if_pos hd]
      have hne : (d.page_content == s) = false := by
        have : d.page_content ≠ s := fun hx => hs (hx ▸ hd)
        simp [this]
      rw [ih S hs]
      simp only [List.find?, hne]
    · rw [if_neg hd]
      by_cases hds : d.page_content = s
      · have hp : (d.page_content == s) = true := by simp [hds]
        simp only [List.find?, hp]
      · have hp : (d.page_content == s) = false := by simp [hds]
        have hrec := ih (d.page_content :: S) (by
          intro hx
          rcases List.mem_cons.mp hx with hx | hx
          · exact hds hx.symm
          · exact hs hx)
        simp only [List.find?, hp]
        exact hrec

/-- C2: `_deduplicate_documents` returns a subsequence of its input whose
contents are pairwise distinct and exhaust the input's contents, and for
every content string the kept document is the first input document with
that content (so order is preserved, duplicates are exactly the
byte-identical contents, and two chunks with equal content but different
metadata yield one output).  The run's Python string hash `h` is abstract;
the hypothesis states it is collision-free on the input contents, the only
property the code relies on. -/
theorem deduplicate_documents_spec (h : String → Int) (documents : List Document)
    (hcoll : ∀ d₁ ∈ documents, ∀ d₂ ∈ documents,
      h d₁.page_content = h d₂.page_content → d₁.page_content = d₂.page_content) :
    List.Sublist (deduplicate_documents h documents) documents ∧
    ((deduplicate_documents h documents).map Document.page_content).Nodup ∧
    (∀ s : String,
      s ∈ (deduplicate_documents h documents).map Document.page_content ↔
        s ∈ documents.map Document.page_content) ∧
    (∀ s : String,
      (deduplicate_documents h documents).find? (fun d => d.page_content == s) =
        documents.find? (fun d => d.page_content == s)) := by
  have he : deduplicate_documents h documents = dedupStrGo [] documents := by
    have hc : ∀ a b : String,
        (a ∈ ([] : List String) ∨ a ∈ documents.map Document.page_content) →
        (b ∈ ([] : List String) ∨ b ∈ documents.map Document.page_content) →
        h a = h b → a = b := by
      intro a b ha hb hab
      rcases ha with ha | ha
      · exact absurd ha (List.not_mem_nil a)
      rcases hb with hb | hb
      · exact absurd hb (List.not_mem_nil b)
      rcases List.mem_map.mp ha with ⟨da, hda, hda'⟩
      rcases List.mem_map.mp hb with ⟨db, hdb, hdb'⟩
      rw [← hda', ← hdb']
      exact hcoll da hda db hdb (by rw [hda', hdb']; exact hab)
    have := dedupGo_eq_dedupStrGo h [] documents hc
    simpa [deduplicate_documents] using this
  refine ⟨?_, ?_, ?_, ?_⟩
  · rw [he]; exact dedupStrGo_sublist [] documents
  · rw [he]; exact dedupStrGo_nodup [] documents
  · intro s
    rw [he, mem_dedupStrGo_contents]
    simp
  · intro s
    rw [he]
    exact dedupStrGo_find? [] documents s (List.not_mem_nil s)

def docW1 : Document := { page_content := "a", metadata := [] }

def docW2 : Document := { page_content := "aa", metadata := [] }

def docW3 : Document := { page_content := "a", metadata := [("source", .str "x")] }

/-- Witness for C2 at a concrete input: three documents, the third sharing
the first's content with different metadata, deduplicated with string
length as a (collision-free here) hash. -/
theorem deduplicate_documents_spec_witness :
    List.Sublist (deduplicate_documents (fun s => (s.length : Int)) [docW1, docW2, docW3])
      [docW1, docW2, docW3] ∧
    ((deduplicate_documents (fun s => (s.length : Int)) [docW1, docW2, docW3]).map
      Document.page_content).Nodup ∧
    (∀ s : String,
      s ∈ (deduplicate_documents (fun s => (s.length : Int)) [docW1, docW2, docW3]).map
        Document.page_content ↔
        s ∈ ([docW1, docW2, docW3] : List Document).map Document.page_content) ∧
    (∀ s : String,
      (deduplicate_documents (fun s => (s.length : Int)) [docW1, docW2, docW3]).find?
          (fun d => d.page_content == s) =
        ([docW1, docW2, docW3] : List Document).find? (fun d => d.page_content == s)) :=
  deduplicate_documents_spec (fun s => (s.length : Int)) [docW1, docW2, docW3]
    (by decide)

/-- C1: for any strategy name other than the three known ones, the
dispatch body of `retrieve_documents` raises the unknown-method
`ValueError` — independently of the retriever state, so no strategy runs
and no retrieval work is performed — and the public call, whose generic
handler catches the exception, returns the empty list. -/
theorem retrieve_documents_unknown_method (h : String → Int) (query method : String)
    (h1 : method ≠ "similarity") (h2 : method ≠ "compression") (h3 : method ≠ "hybrid") :
    (∀ (r : DocumentRetriever) (br : BoundRetriever),
      retrieve_documents_body h r br query method =
        .error ("Unknown retrieval method: " ++ method)) ∧
    (∀ r : DocumentRetriever, retrieve_documents h r query method = []) := by
  have hb : ∀ (r : DocumentRetriever) (br : BoundRetriever),
      retrieve_documents_body h r br query method =
        .error ("Unknown retrieval method: " ++ method) := by
    intro r br
    rw [retrieve_documents_body, if_neg h1, if_neg h2, if_neg h3]
  refine ⟨hb, ?_⟩
  intro r
  rw [retrieve_documents]
  cases hr : r.base_retriever with
  | none => rfl
  | some br => simp [hb r br]

def vsW : VectorStore :=
  { search := fun _ _ => [], search_with_score := fun _ _ => [] }

def brW : BoundRetriever := { store := vsW, k := 4 }

def retrW : DocumentRetriever :=
  { vector_store_manager := { vector_store := some vsW }
    base_retriever := some brW
    compression_retriever := none }

/-- Witness for C1 at the concrete unknown strategy name `"mmr"`. -/
theorem retrieve_documents_unknown_method_witness :
    retrieve_documents_body (fun _ => 0) retrW brW "q" "mmr" =
      .error ("Unknown retrieval method: " ++ "mmr") ∧
    retrieve_documents (fun _ => 0) retrW "q" "mmr" = [] :=
  ⟨(retrieve_documents_unknown_method (fun _ => 0) "q" "mmr"
      (by decide) (by decide) (by decide)).1 retrW brW,
   (retrieve_documents_unknown_method (fun _ => 0) "q" "mmr"
      (by decide) (by decide) (by decide)).2 retrW⟩

/-- C4: `_hybrid_retrieval` returns exactly the deduplicated concatenation
of the plain similarity results with the scored results of strict score
below `0.7`, truncated to `settings.RETRIEVAL_K`; the truncated list's
length is at most `settings.RETRIEVAL_K`. -/
theorem hybrid_retrieval_spec (h : String → Int) (r : DocumentRetriever)
    (br : BoundRetriever) (query : String) (scored : List (Document × ℚ))
    (hscored : similarity_search_with_score r.vector_store_manager query none = .ok scored) :
    hybrid_retrieval h r br query =
      .ok ((deduplicate_documents h
        (similarity_retrieval br query ++
          (scored.filter (fun p => p.2 < (7 : ℚ) / 10)).map (fun p => p.1))).take
        settings.RETRIEVAL_K) ∧
    ((deduplicate_documents h
        (similarity_retrieval br query ++
          (scored.filter (fun p => p.2 < (7 : ℚ) / 10)).map (fun p => p.1))).take
        settings.RETRIEVAL_K).length ≤ settings.RETRIEVAL_K := by
  constructor
  · rw [hybrid_retrieval, hscored]
    rfl
  · exact List.length_take_le _ _

/-- Witness for C4 at a concrete retriever whose oracles return nothing. -/
theorem hybrid_retrieval_spec_witness :
    hybrid_retrieval (fun _ => 0) retrW brW "q" =
      .ok ((deduplicate_documents (fun _ => 0)
        (similarity_retrieval brW "q" ++
          (([] : List (Document × ℚ)).filter (fun p => p.2 < (7 : ℚ) / 10)).map
            (fun p => p.1))).take settings.RETRIEVAL_K) ∧
    ((deduplicate_documents (fun _ => 0)
        (similarity_retrieval brW "q" ++
          (([] : List (Document × ℚ)).filter (fun p => p.2 < (7 : ℚ) / 10)).map
            (fun p => p.1))).take settings.RETRIEVAL_K).length ≤ settings.RETRIEVAL_K :=
  hybrid_retrieval_spec (fun _ => 0) retrW brW "q" [] rfl

/-- C9: with no compression retriever set up, the `"compression"` strategy
of `retrieve_documents` returns exactly the `"similarity"` strategy's
result (in every retriever state, with no exception raised). -/
theorem compression_fallback (h : String → Int) (m : VectorStoreManager)
    (b : Option BoundRetriever) (query : String) :
    retrieve_documents h
      { vector_store_manager := m, base_retriever := b, compression_retriever := none }
      query "compression" =
    retrieve_documents h
      { vector_store_manager := m, base_retriever := b, compression_retriever := none }
      query "similarity" := by
  cases b with
  | none => rfl
  | some br => rfl

lemma metadataMatches_iff (d : Document) (f : List (String × PyVal)) :
    metadataMatches d f = true ↔ ∀ p ∈ f, dictGet d.metadata p.1 = some p.2 := by
  induction f with
  | nil => simp [metadataMatches]
  | cons p rest ih =>
    obtain ⟨k, v⟩ := p
    cases hg : dictGet d.metadata k with
    | none =>
      simp only [metadataMatches, hg]
      simp only [Bool.false_eq_true, false_iff]
      intro hall
      have := hall (k, v) (List.mem_cons_self _ _)
      rw [hg] at this
      exact Option.noConfusion this
    | some w =>
      simp only [metadataMatches, hg]
      by_cases hw : w = v
      · rw [if_pos hw, ih]
        constructor
        · intro hall p hp
          rcases List.mem_cons.mp hp with hp | hp
          · rw [hp]
            simpa [hg] using congrArg some hw
          · exact hall p hp
        · intro hall p hp
          exact hall p (List.mem_cons_of_mem _ hp)
      · rw [if_neg hw]
        simp only [Bool.false_eq_true, false_iff]
        intro hall
        have := hall (k, v) (List.mem_cons_self _ _)
        rw [hg] at this
        exact hw (Option.some.inj this)

/-- C10: `retrieve_with_metadata_filter` keeps, in order, exactly those
documents of the default (`"similarity"`) retrieval whose metadata holds
every filter key with an equal value; a document lacking a filter key is
dropped, and the empty filter keeps everything. -/
theorem retrieve_with_metadata_filter_spec (h : String → Int) (r : DocumentRetriever)
    (query : String) (f : List (String × PyVal)) :
    retrieve_with_metadata_filter h r query f =
      (retrieve_documents h r query "similarity").filter
        (fun d => decide (∀ p ∈ f, dictGet d.metadata p.1 = some p.2)) ∧
    List.Sublist (retrieve_with_metadata_filter h r query f)
      (retrieve_documents h r query "similarity") ∧
    retrieve_with_metadata_filter h r query [] =
      retrieve_documents h r query "similarity" := by
  have hpt : ∀ d : Document,
      metadataMatches d f = decide (∀ p ∈ f, dictGet d.metadata p.1 = some p.2) := by
    intro d
    by_cases hd : ∀ p ∈ f, dictGet d.metadata p.1 = some p.2
    · rw [decide_eq_true hd, (metadataMatches_iff d f).mpr hd]
    · rw [decide_eq_false hd]
      cases hmm : metadataMatches d f
      · rfl
      · exact absurd ((metadataMatches_iff d f).mp hmm) hd
  refine ⟨?_, ?_, ?_⟩
  · rw [retrieve_with_metadata_filter]
    exact List.filter_congr (fun d _ => hpt d)
  · rw [retrieve_with_metadata_filter]
    exact List.filter_sublist _
  · rw [retrieve_with_metadata_filter]
    simp [metadataMatches]

/-- A message held by `ConversationBufferMemory` (`HumanMessage` /
`AIMessage`). -/
inductive ChatMessage where
  | human (content : String)
  | ai (content : String)
  deriving DecidableEq, Repr

/-- The dictionary returned by one call of the
`ConversationalRetrievalChain` (`answer`, and `source_documents` when the
key is present). -/
structure ChainOutput where
  answer : String
  source_documents : Option (List Document)

/-- The conversational retrieval chain object built by
`_setup_conversation_chain`: given the current memory and the question it
retrieves, prompts and invokes the language model — all external, hence an
oracle that either answers or raises. -/
structure ConversationChain where
  run : List ChatMessage → String → Except String ChainOutput

/-- `src/chatbot.py`: `RAGChatbot`.  `conversation_chain` is `None` when
`_setup_conversation_chain` failed (empty vector store); `memory` is the
conversation buffer.  The llm, manager and retriever fields do not enter
the claims about `chat`. -/
structure RAGChatbot where
  conversation_chain : Option ConversationChain
  memory : List ChatMessage

/-- The dictionary `chat` returns. -/
structure ChatResponse where
  answer : String
  source_documents : List Document
  sources : List PyVal
  deriving Repr

/-- `RAGChatbot.chat`: fixed not-ready answer when no chain is configured
(memory untouched); otherwise run the chain — on success the buffer memory
records the question and answer, on an exception the handler returns an
apologetic answer with empty sources and the memory is not updated.
The unused `retrieval_method` parameter of the source is kept. -/
def chat (bot : RAGChatbot) (message : String)
    (retrieval_method : String := "similarity") : ChatResponse × RAGChatbot :=
  match bot.conversation_chain with
  | none =>
    ({ answer := "Maaf, sistem belum siap. Pastikan dokumen telah dimuat ke dalam vector store."
       source_documents := []
       sources := [] }, bot)
  | some chain =>
    match chain.run bot.memory message with
    | .error e =>
      ({ answer := "Maaf, terjadi kesalahan: " ++ e
         source_documents := []
         sources := [] }, bot)
    | .ok response =>
      let sources := match response.source_documents with
        | some docs => get_document_sources docs
        | none => []
      ({ answer := response.answer
         source_documents := response.source_documents.getD []
         sources := sources },
       { bot with memory := bot.memory ++ [.human message, .ai response.answer] })

/-- C3: with no conversation chain configured, `chat` returns the fixed
not-ready answer with empty `source_documents` and `sources` for every
message and method, no chain (hence no language model) exists to be
invoked, and the bot state — in particular the memory turn count — is
returned unchanged. -/
theorem chat_not_ready (memory : List ChatMessage) (message retrieval_method : String) :
    chat { conversation_chain := none, memory := memory } message retrieval_method =
      ({ answer := "Maaf, sistem belum siap. Pastikan dokumen telah dimuat ke dalam vector store."
         source_documents := []
         sources := [] },
       { conversation_chain := none, memory := memory }) ∧
    (chat { conversation_chain := none, memory := memory } message retrieval_method).2.memory
      = memory :=
  ⟨rfl, rfl⟩

/-- The whitespace class of Python `str.split()` / `str.strip()`,
restricted to the ASCII whitespace characters (the Unicode extras play no
role in the claims). -/
def isPySpace (c : Char) : Bool :=
  c = ' ' || c = '\t' || c = '\n' || c = '\r' || c = '\x0b' || c = '\x0c'

/-- Accumulator pass of Python `text.split()`: walk the characters,
emitting the (reversed) current token at each whitespace run; empty tokens
are never emitted. -/
def splitTokensAux (acc : List Char) : List Char → List (List Char)
  | [] => if acc.isEmpty then [] else [acc.reverse]
  | c :: cs =>
    if isPySpace c then
      if acc.isEmpty then splitTokensAux [] cs
      else acc.reverse :: splitTokensAux [] cs
    else
      splitTokensAux (c :: acc) cs

/-- Python `text.split()` (no separator): maximal whitespace-free runs. -/
def splitTokens (l : List Char) : List (List Char) := splitTokensAux [] l

/-- Python `" ".join(...)` at the character level. -/
def joinSpace : List (List Char) → List Char
  | [] => []
  | [t] => t
  | t :: t' :: ts => t ++ ' ' :: joinSpace (t' :: ts)

/-- Python `text.strip()`: drop leading and trailing whitespace. -/
def stripChars (l : List Char) : List Char :=
  ((l.dropWhile isPySpace).reverse.dropWhile isPySpace).reverse

/-- `TextProcessor.clean_text`: `" ".join(text.split())` then `.strip()`. -/
def clean_text (text : String) : String :=
  String.mk (stripChars (joinSpace (splitTokens text.data)))

/-- A token as produced by `splitTokens`: nonempty and whitespace-free. -/
def goodToken (t : List Char) : Prop := t ≠ [] ∧ ∀ c ∈ t, isPySpace c = false

def goodTokens (ts : List (List Char)) : Prop := ∀ t ∈ ts, goodToken t

lemma isEmpty_false_of_ne_nil {α : Type} {l : List α} (h : l ≠ []) :
    l.isEmpty = false := by
  cases l with
  | nil => exact absurd rfl h
  | cons a l => rfl

lemma reverse_ne_nil_of_ne_nil {α : Type} {l : List α} (h : l ≠ []) :
    l.reverse ≠ [] := by
  intro hx
  exact h (by simpa using congrArg List.reverse hx)

lemma splitTokensAux_goodTokens (l : List Char) :
    ∀ acc : List Char, (∀ c ∈ acc, isPySpace c = false) →
      goodTokens (splitTokensAux acc l) := by
  induction l with
  | nil =>
    intro acc hacc t ht
    rw [splitTokensAux] at ht
    by_cases hae : acc.isEmpty
    · rw [if_pos hae] at ht
      exact absurd ht (List.not_mem_nil t)
    · rw [if_neg hae] at ht
      rcases List.mem_cons.mp ht with ht | ht
      · subst ht
        refine ⟨?_, ?_⟩
        · intro hx
          exact hae (by
            have hx2 : acc = [] := by simpa using congrArg List.reverse hx
            simp [hx2])
        · intro c hc
          exact hacc c (List.mem_reverse.mp hc)
      · exact absurd ht (List.not_mem_nil t)
  | cons c cs ih =>
    intro acc hacc t ht
    rw [splitTokensAux] at ht
    by_cases hsp : isPySpace c = true
    · rw [if_pos hsp] at ht
      by_cases hae : acc.isEmpty
      · rw [if_pos hae] at ht
        exact ih [] (by intro x hx; exact absurd hx (List.not_mem_nil x)) t ht
      · rw [if_neg hae] at ht
        rcases List.mem_cons.mp ht with ht | ht
        · subst ht
          refine ⟨?_, ?_⟩
          · intro hx
            exact hae (by
              have hx2 : acc = [] := by simpa using congrArg List.reverse hx
              simp [hx2])
          · intro x hx
            exact hacc x (List.mem_reverse.mp hx)
        · exact ih [] (by intro x hx; exact absurd hx (List.not_mem_nil x)) t ht
    · rw [if_neg hsp] at ht
      refine ih (c :: acc) ?_ t ht
      intro x hx
      rcases List.mem_cons.mp hx with hx | hx
      · subst hx
        exact Bool.eq_false_iff.mpr hsp
      · exact hacc x hx

lemma splitTokens_goodTokens (l : List Char) : goodTokens (splitTokens l) :=
  splitTokensAux_goodTokens l [] (by intro x hx; exact absurd hx (List.not_mem_nil x))

lemma splitTokensAux_append_token (t : List Char) (hns : ∀ c ∈ t, isPySpace c = false) :
    ∀ (acc l : List Char), splitTokensAux acc (t ++ l) = splitTokensAux (t.reverse ++ acc) l := by
  induction t with
  | nil => intro acc l; simp
  | cons c t' ih =>
    intro acc l
    have hc : isPySpace c = false := hns c (List.mem_cons_self _ _)
    have ht' : ∀ x ∈ t', isPySpace x = false :=
      fun x hx => hns x (List.mem_cons_of_mem _ hx)
    rw [List.cons_append, splitTokensAux, if_neg (by rw [hc]; exact Bool.false_ne_true)]
    rw [ih ht' (c :: acc) l]
    simp

lemma splitTokensAux_space (acc l : List Char) :
    splitTokensAux acc (' ' :: l) =
      if acc.isEmpty then splitTokensAux [] l else acc.reverse :: splitTokensAux [] l := by
  rw [splitTokensAux, if_pos (by decide : isPySpace ' ' = true)]

lemma splitTokens_joinSpace (ts : List (List Char)) (hts : goodTokens ts) :
    splitTokens (joinSpace ts) = ts := by
  induction ts with
  | nil => rfl
  | cons t ts ih =>
    have htg : goodToken t := hts t (List.mem_cons_self _ _)
    have hts' : goodTokens ts := fun x hx => hts x (List.mem_cons_of_mem _ hx)
    have hrevne : t.reverse ≠ [] := reverse_ne_nil_of_ne_nil htg.1
    have hrevE : t.reverse.isEmpty = false := isEmpty_false_of_ne_nil hrevne
    cases ts with
    | nil =>
      show splitTokensAux [] (joinSpace [t]) = [t]
      have happ := splitTokensAux_append_token t htg.2 [] []
      rw [List.append_nil, List.append_nil] at happ
      rw [joinSpace, happ, splitTokensAux,
        if_neg (by rw [hrevE]; exact Bool.false_ne_true)]
      simp
    | cons t' ts' =>
      show splitTokensAux [] (joinSpace (t :: t' :: ts')) = t :: t' :: ts'
      rw [joinSpace]
      rw [splitTokensAux_append_token t htg.2 [] (' ' :: joinSpace (t' :: ts'))]
      rw [List.append_nil, splitTokensAux_space]
      rw [if_neg (by rw [hrevE]; exact Bool.false_ne_true)]
      rw [List.reverse_reverse]
      exact congrArg (t :: ·) (ih hts')

lemma joinSpace_ne_nil (ts : List (List Char)) (hts : goodTokens ts) (hne : ts ≠ []) :
    joinSpace ts ≠ [] := by
  cases ts with
  | nil => exact absurd rfl hne
  | cons t ts =>
    have htg : goodToken t := hts t (List.mem_cons_self _ _)
    cases ts with
    | nil =>
      rw [joinSpace]
      exact htg.1
    | cons t' ts' =>
      rw [joinSpace]
      intro hx
      rcases List.append_eq_nil.mp hx with ⟨h1, _⟩
      exact htg.1 h1

lemma joinSpace_head_nonspace (ts : List (List Char)) (hts : goodTokens ts) :
    ∀ c : Char, (joinSpace ts).head? = some c → isPySpace c = false := by
  cases ts with
  | nil => intro c hc; exact absurd hc (by simp [joinSpace])
  | cons t ts =>
    have htg : goodToken t := hts t (List.mem_cons_self _ _)
    intro c hc
    have hcm : c ∈ t := by
      cases ht : t with
      | nil => exact absurd ht htg.1
      | cons a t0 =>
        cases ts with
        | nil =>
          rw [joinSpace, ht, List.head?_cons] at hc
          rw [← Option.some.inj hc]
          exact List.mem_cons_self _ _
        | cons t' ts' =>
          rw [joinSpace, ht, List.cons_append, List.head?_cons] at hc
          rw [← Option.some.inj hc]
          exact List.mem_cons_self _ _
    exact htg.2 c hcm

lemma getLast?_mem_of_eq {α : Type} : ∀ (l : List α) (c : α), l.getLast? = some c → c ∈ l := by
  intro l
  induction l with
  | nil => intro c hc; exact absurd hc (by simp)
  | cons a l ih =>
    intro c hc
    cases l with
    | nil =>
      simp at hc
      simp [hc]
    | cons b l' =>
      rw [List.getLast?_cons_cons] at hc
      exact List.mem_cons_of_mem _ (ih c hc)

lemma joinSpace_getLast_nonspace (ts : List (List Char)) (hts : goodTokens ts) :
    ∀ c : Char, (joinSpace ts).getLast? = some c → isPySpace c = false := by
  induction ts with
  | nil => intro c hc; exact absurd hc (by simp [joinSpace])
  | cons t ts ih =>
    have htg : goodToken t := hts t (List.mem_cons_self _ _)
    have hts' : goodTokens ts := fun x hx => hts x (List.mem_cons_of_mem _ hx)
    intro c hc
    cases ts with
    | nil =>
      rw [joinSpace] at hc
      exact htg.2 c (getLast?_mem_of_eq t c hc)
    | cons t' ts' =>
      rw [joinSpace] at hc
      rw [List.getLast?_append_of_ne_nil t
        (List.cons_ne_nil ' ' (joinSpace (t' :: ts')))] at hc
      have hjne : joinSpace (t' :: ts') ≠ [] :=
        joinSpace_ne_nil (t' :: ts') hts' (List.cons_ne_nil t' ts')
      cases hj : joinSpace (t' :: ts') with
      | nil => exact absurd hj hjne
      | cons x xs =>
        rw [hj, List.getLast?_cons_cons] at hc
        refine ih hts' c ?_
        rw [hj]
        exact hc

lemma dropWhile_eq_self_of_head (l : List Char)
    (hl : ∀ c : Char, l.head? = some c → isPySpace c = false) :
    l.dropWhile isPySpace = l := by
  cases l with
  | nil => rfl
  | cons a l =>
    have := hl a rfl
    simp [List.dropWhile_cons, this]

lemma strip_joinSpace (ts : List (List Char)) (hts : goodTokens ts) :
    stripChars (joinSpace ts) = joinSpace ts := by
  rw [stripChars]
  rw [dropWhile_eq_self_of_head _ (joinSpace_head_nonspace ts hts)]
  rw [dropWhile_eq_self_of_head _ ?hrev]
  · exact List.reverse_reverse _
  case hrev =>
    intro c hc
    rw [List.head?_reverse] at hc
    exact joinSpace_getLast_nonspace ts hts c hc

lemma eq_nil_of_isEmpty {α : Type} {l : List α} (h : l.isEmpty = true) : l = [] := by
  cases l with
  | nil => rfl
  | cons a l => exact absurd h (by simp)

lemma splitTokensAux_join (l : List Char) :
    ∀ acc : List Char,
      (splitTokensAux acc l).flatten = acc.reverse ++ l.filter (fun c => !isPySpace c) := by
  induction l with
  | nil =>
    intro acc
    rw [splitTokensAux]
    by_cases hae : acc.isEmpty
    · rw [if_pos hae, eq_nil_of_isEmpty hae]
      simp
    · rw [if_neg hae]
      simp
  | cons c cs ih =>
    intro acc
    rw [splitTokensAux]
    by_cases hsp : isPySpace c = true
    · have hf : (!isPySpace c) = false := by rw [hsp]; rfl
      rw [if_pos hsp]
      by_cases hae : acc.isEmpty
      · rw [if_pos hae, eq_nil_of_isEmpty hae, ih []]
        simp [List.filter_cons, hf]
      · rw [if_neg hae, List.flatten_cons, ih []]
        simp [List.filter_cons, hf]
    · have hf : (!isPySpace c) = true := by
        rw [Bool.eq_false_iff.mpr hsp]; rfl
      rw [if_neg hsp, ih (c :: acc)]
      simp [List.filter_cons, hf]

lemma joinSpace_filter (ts : List (List Char)) (hts : goodTokens ts) :
    (joinSpace ts).filter (fun c => !isPySpace c) = ts.flatten := by
  induction ts with
  | nil => rfl
  | cons t ts ih =>
    have htg : goodToken t := hts t (List.mem_cons_self _ _)
    have hts' : goodTokens ts := fun x hx => hts x (List.mem_cons_of_mem _ hx)
    have hft : t.filter (fun c => !isPySpace c) = t := by
      rw [List.filter_eq_self]
      intro a ha
      rw [htg.2 a ha]
      rfl
    cases ts with
    | nil =>
      rw [joinSpace]
      simp [hft]
    | cons t' ts' =>
      rw [joinSpace, List.filter_append, hft, List.flatten_cons]
      rw [List.filter_cons]
      simp only [(by decide : (!isPySpace ' ') = false)]
      rw [ih hts']
      simp [List.flatten_cons]

lemma chain'_nonspace (t : List Char) (ht : ∀ c ∈ t, isPySpace c = false) :
    List.Chain' (fun a b => ¬(isPySpace a = true ∧ isPySpace b = true)) t := by
  induction t with
  | nil => exact List.chain'_nil
  | cons a t ih =>
    rw [List.chain'_cons']
    refine ⟨?_, ih (fun c hc => ht c (List.mem_cons_of_mem _ hc))⟩
    intro b _ hx
    rw [ht a (List.mem_cons_self _ _)] at hx
    exact Bool.false_ne_true hx.1

lemma joinSpace_chain' (ts : List (List Char)) (hts : goodTokens ts) :
    List.Chain' (fun a b => ¬(isPySpace a = true ∧ isPySpace b = true)) (joinSpace ts) := by
  induction ts with
  | nil => exact List.chain'_nil
  | cons t ts ih =>
    have htg : goodToken t := hts t (List.mem_cons_self _ _)
    have hts' : goodTokens ts := fun x hx => hts x (List.mem_cons_of_mem _ hx)
    cases ts with
    | nil =>
      rw [joinSpace]
      exact chain'_nonspace t htg.2
    | cons t' ts' =>
      rw [joinSpace, List.chain'_append]
      refine ⟨chain'_nonspace t htg.2, ?_, ?_⟩
      · rw [List.chain'_cons']
        refine ⟨?_, ih hts'⟩
        intro b hb hx
        have hbs : isPySpace b = false :=
          joinSpace_head_nonspace (t' :: ts') hts' b (Option.mem_def.mp hb)
        rw [hbs] at hx
        exact Bool.false_ne_true hx.2
      · intro x hx y _ hxy
        have hxs : isPySpace x = false :=
          htg.2 x (getLast?_mem_of_eq t x (Option.mem_def.mp hx))
        rw [hxs] at hxy
        exact Bool.false_ne_true hxy.1

lemma joinSpace_space_chars (ts : List (List Char)) (hts : goodTokens ts) :
    ∀ c ∈ joinSpace ts, isPySpace c = true → c = ' ' := by
  induction ts with
  | nil => intro c hc; exact absurd hc (List.not_mem_nil c)
  | cons t ts ih =>
    have htg : goodToken t := hts t (List.mem_cons_self _ _)
    have hts' : goodTokens ts := fun x hx => hts x (List.mem_cons_of_mem _ hx)
    cases ts with
    | nil =>
      rw [joinSpace]
      intro c hc hsp
      have := htg.2 c hc
      rw [this] at hsp
      exact Bool.noConfusion hsp
    | cons t' ts' =>
      rw [joinSpace]
      intro c hc hsp
      rcases List.mem_append.mp hc with hc | hc
      · have := htg.2 c hc
        rw [this] at hsp
        exact Bool.noConfusion hsp
      · rcases List.mem_cons.mp hc with hc | hc
        · exact hc
        · exact ih hts' c hc hsp

/-- C5: `clean_text` maps `"  a   b  "` to `"a b"`, is idempotent and, on
every input, preserves the non-whitespace characters in order while
leaving no leading or trailing whitespace, no two adjacent whitespace
characters, and only plain spaces as remaining whitespace. -/
theorem clean_text_spec :
    clean_text "  a   b  " = "a b" ∧
    (∀ t : String, clean_text (clean_text t) = clean_text t) ∧
    (∀ t : String, (clean_text t).data.filter (fun c => !isPySpace c) =
      t.data.filter (fun c => !isPySpace c)) ∧
    (∀ t : String, (clean_text t).data.dropWhile isPySpace = (clean_text t).data) ∧
    (∀ t : String,
      (clean_text t).data.reverse.dropWhile isPySpace = (clean_text t).data.reverse) ∧
    (∀ t : String, List.Chain' (fun a b => ¬(isPySpace a = true ∧ isPySpace b = true))
      (clean_text t).data) ∧
    (∀ t : String, ∀ c ∈ (clean_text t).data, isPySpace c = true → c = ' ') := by
  have hdata : ∀ t : String, (clean_text t).data = joinSpace (splitTokens t.data) :=
    fun t => strip_joinSpace _ (splitTokens_goodTokens t.data)
  refine ⟨by decide, ?_, ?_, ?_, ?_, ?_, ?_⟩
  · intro t
    show String.mk (stripChars (joinSpace (splitTokens (clean_text t).data))) = clean_text t
    rw [hdata t, splitTokens_joinSpace _ (splitTokens_goodTokens t.data),
      strip_joinSpace _ (splitTokens_goodTokens t.data)]
    show _ = String.mk (stripChars (joinSpace (splitTokens t.data)))
    rw [strip_joinSpace _ (splitTokens_goodTokens t.data)]
  · intro t
    rw [hdata t, joinSpace_filter _ (splitTokens_goodTokens t.data)]
    have := splitTokensAux_join t.data []
    simpa [splitTokens] using this
  · intro t
    rw [hdata t]
    exact dropWhile_eq_self_of_head _
      (joinSpace_head_nonspace _ (splitTokens_goodTokens t.data))
  · intro t
    rw [hdata t]
    refine dropWhile_eq_self_of_head _ ?_
    intro c hc
    rw [List.head?_reverse] at hc
    exact joinSpace_getLast_nonspace _ (splitTokens_goodTokens t.data) c hc
  · intro t
    rw [hdata t]
    exact joinSpace_chain' _ (splitTokens_goodTokens t.data)
  · intro t
    rw [hdata t]
    exact joinSpace_space_chars _ (splitTokens_goodTokens t.data)

lemma dictGet_map_set_same (k : String) (v : PyVal) :
    ∀ m : List (String × PyVal), m.any (fun p => p.1 = k) = true →
      dictGet (m.map (fun p => if p.1 = k then (k, v) else p)) k = some v := by
  intro m
  induction m with
  | nil => intro h; exact absurd h (by simp)
  | cons a m ih =>
    intro h
    rw [List.map_cons]
    by_cases ha : a.1 = k
    · show dictGet ((if a.1 = k then (k, v) else a) ::
        m.map (fun p => if p.1 = k then (k, v) else p)) k = some v
      rw [if_pos ha, dictGet, if_pos (show ((k, v) : String × PyVal).1 = k from rfl)]
    · show dictGet ((if a.1 = k then (k, v) else a) ::
        m.map (fun p => if p.1 = k then (k, v) else p)) k = some v
      rw [if_neg ha, dictGet, if_neg ha]
      refine ih ?_
      rw [List.any_cons] at h
      simpa [ha] using h

lemma dictGet_map_set_other (k k' : String) (v : PyVal) (hkk : k' ≠ k) :
    ∀ m : List (String × PyVal),
      dictGet (m.map (fun p => if p.1 = k then (k, v) else p)) k' = dictGet m k' := by
  intro m
  induction m with
  | nil => rfl
  | cons a m ih =>
    rw [List.map_cons]
    show dictGet ((if a.1 = k then (k, v) else a) ::
      m.map (fun p => if p.1 = k then (k, v) else p)) k' = dictGet (a :: m) k'
    by_cases ha : a.1 = k
    · have hk1 : ¬(((k, v) : String × PyVal).1 = k') := fun hx => hkk hx.symm
      have hk2 : ¬(a.1 = k') := by rw [ha]; exact hk1
      rw [if_pos ha, dictGet, dictGet, if_neg hk1, if_neg hk2, ih]
    · rw [if_neg ha, dictGet, dictGet]
      by_cases ha' : a.1 = k'
      · rw [if_pos ha', if_pos ha']
      · rw [if_neg ha', if_neg ha', ih]

lemma dictGet_append_single_same (k : String) (v : PyVal) :
    ∀ m : List (String × PyVal), m.any (fun p => p.1 = k) = false →
      dictGet (m ++ [(k, v)]) k = some v := by
  intro m
  induction m with
  | nil =>
    intro _
    rw [List.nil_append, dictGet, if_pos (show ((k, v) : String × PyVal).1 = k from rfl)]
  | cons a m ih =>
    intro h
    rw [List.any_cons, Bool.or_eq_false_iff] at h
    have ha : ¬(a.1 = k) := of_decide_eq_false h.1
    rw [List.cons_append, dictGet, if_neg ha]
    exact ih h.2

lemma dictGet_append_single_other (k k' : String) (v : PyVal) (hkk : k' ≠ k) :
    ∀ m : List (String × PyVal), dictGet (m ++ [(k, v)]) k' = dictGet m k' := by
  intro m
  induction m with
  | nil =>
    show dictGet [(k, v)] k' = dictGet [] k'
    simp only [dictGet]
    rw [if_neg (fun hx => hkk (Eq.symm hx))]
  | cons a m ih =>
    rw [List.cons_append, dictGet, dictGet]
    by_cases ha : a.1 = k'
    · rw [if_pos ha, if_pos ha]
    · rw [if_neg ha, if_neg ha, ih]

lemma dictGet_dictSet_same (m : List (String × PyVal)) (k : String) (v : PyVal) :
    dictGet (dictSet m k v) k = some v := by
  rw [dictSet]
  by_cases hany : m.any (fun p => p.1 = k)
  · rw [if_pos hany]
    exact dictGet_map_set_same k v m hany
  · rw [if_neg hany]
    exact dictGet_append_single_same k v m (Bool.eq_false_iff.mpr hany)

lemma dictGet_dictSet_other (m : List (String × PyVal)) (k k' : String) (v : PyVal)
    (hkk : k' ≠ k) :
    dictGet (dictSet m k v) k' = dictGet m k' := by
  rw [dictSet]
  by_cases hany : m.any (fun p => p.1 = k)
  · rw [if_pos hany]
    exact dictGet_map_set_other k k' v hkk m
  · rw [if_neg hany]
    exact dictGet_append_single_other k k' v hkk m

/-- The langchain `RecursiveCharacterTextSplitter.split_documents` call of
`process_documents`, with the recursive splitting policy abstracted as
`splitText`: each document's content is split into pieces, each piece
becoming a Document carrying a copy of the source document's metadata. -/
def split_documents (splitText : String → List String) : List Document → List Document
  | [] => []
  | d :: ds =>
    (splitText d.page_content).map (fun s => { page_content := s, metadata := d.metadata })
      ++ split_documents splitText ds

/-- The `for i, chunk in enumerate(chunks)` loop of `process_documents`:
`chunk.metadata.update({"chunk_id": i, "chunk_size": len(chunk.page_content)})`,
numbering from `n`. -/
def addChunkMeta : Nat → List Document → List Document
  | _, [] => []
  | i, c :: cs =>
    { c with metadata := dictSet (dictSet c.metadata "chunk_id" (.int i)) "chunk_size" (.int c.page_content.length) }
      :: addChunkMeta (i + 1) cs

/-- `TextProcessor.process_documents`: split all documents into chunks,
then stamp each chunk with its global index and size. -/
def process_documents (splitText : String → List String) (documents : List Document) :
    List Document :=
  addChunkMeta 0 (split_documents splitText documents)

lemma length_addChunkMeta : ∀ (n : Nat) (l : List Document),
    (addChunkMeta n l).length = l.length := by
  intro n l
  induction l generalizing n with
  | nil => rfl
  | cons c cs ih => simp [addChunkMeta, ih]

lemma addChunkMeta_get : ∀ (l : List Document) (n i : Nat)
    (h1 : i < (addChunkMeta n l).length) (h2 : i < l.length),
    (addChunkMeta n l).get ⟨i, h1⟩ =
      { page_content := (l.get ⟨i, h2⟩).page_content
        metadata := dictSet (dictSet (l.get ⟨i, h2⟩).metadata "chunk_id" (.int (n + i)))
          "chunk_size" (.int ((l.get ⟨i, h2⟩).page_content.length)) } := by
  intro l
  induction l with
  | nil => intro n i h1 h2; exact absurd h2 (by simp)
  | cons c cs ih =>
    intro n i h1 h2
    cases i with
    | zero =>
      simp [addChunkMeta]
    | succ j =>
      have h1' : j < (addChunkMeta (n + 1) cs).length := by
        have := length_addChunkMeta (n + 1) cs
        have h2' : j < cs.length := by simpa using h2
        omega
      have h2' : j < cs.length := by simpa using h2
      have hrec := ih (n + 1) j h1' h2'
      have hn : ((n + 1 : ℕ) : ℤ) + ((j : ℕ) : ℤ) = ((n : ℕ) : ℤ) + ((j + 1 : ℕ) : ℤ) := by
        push_cast
        ring
      rw [hn] at hrec
      simpa [addChunkMeta] using hrec

lemma mem_split_documents (f : String → List String) :
    ∀ (docs : List Document) (c : Document), c ∈ split_documents f docs →
      ∃ d ∈ docs, c.page_content ∈ f d.page_content ∧ c.metadata = d.metadata := by
  intro docs
  induction docs with
  | nil => intro c hc; exact absurd hc (List.not_mem_nil c)
  | cons d ds ih =>
    intro c hc
    rw [split_documents] at hc
    rcases List.mem_append.mp hc with hc | hc
    · rcases List.mem_map.mp hc with ⟨s, hs, hse⟩
      refine ⟨d, List.mem_cons_self _ _, ?_, ?_⟩
      · rw [← hse]
        exact hs
      · rw [← hse]
    · rcases ih c hc with ⟨d', hd', hp, hm⟩
      exact ⟨d', List.mem_cons_of_mem _ hd', hp, hm⟩

/-- C6: every chunk of `process_documents` carries `chunk_id` equal to its
zero-based position in the full output sequence and `chunk_size` equal to
its content's character count, while every other metadata key keeps the
value inherited from the chunk's source document. -/
theorem process_documents_chunk_metadata (splitText : String → List String)
    (documents : List Document) (i : Nat)
    (hi : i < (process_documents splitText documents).length) :
    dictGet ((process_documents splitText documents).get ⟨i, hi⟩).metadata "chunk_id" =
      some (.int i) ∧
    dictGet ((process_documents splitText documents).get ⟨i, hi⟩).metadata "chunk_size" =
      some (.int
        (((process_documents splitText documents).get ⟨i, hi⟩).page_content.length)) ∧
    ∃ d ∈ documents,
      ((process_documents splitText documents).get ⟨i, hi⟩).page_content ∈
        splitText d.page_content ∧
      ∀ key : String, key ≠ "chunk_id" → key ≠ "chunk_size" →
        dictGet ((process_documents splitText documents).get ⟨i, hi⟩).metadata key =
          dictGet d.metadata key := by
  have hi2 : i < (split_documents splitText documents).length := by
    have hlen := length_addChunkMeta 0 (split_documents splitText documents)
    rw [process_documents, hlen] at hi
    exact hi
  have hget : (process_documents splitText documents).get ⟨i, hi⟩ =
      { page_content := ((split_documents splitText documents).get ⟨i, hi2⟩).page_content
        metadata := dictSet
          (dictSet ((split_documents splitText documents).get ⟨i, hi2⟩).metadata
            "chunk_id" (.int (0 + i)))
          "chunk_size"
          (.int (((split_documents splitText documents).get ⟨i, hi2⟩).page_content.length)) } :=
    addChunkMeta_get (split_documents splitText documents) 0 i hi hi2
  simp only [Nat.cast_zero, zero_add, Nat.cast_ofNat] at hget
  refine ⟨?_, ?_, ?_⟩
  · rw [hget]
    show dictGet (dictSet (dictSet _ "chunk_id" (.int i)) "chunk_size" _) "chunk_id" = _
    rw [dictGet_dictSet_other _ "chunk_size" "chunk_id" _ (by decide),
      dictGet_dictSet_same]
  · rw [hget]
    show dictGet (dictSet _ "chunk_size" _) "chunk_size" = _
    rw [dictGet_dictSet_same]
  · rcases mem_split_documents splitText documents
      ((split_documents splitText documents).get ⟨i, hi2⟩)
      (List.get_mem _ _ _) with ⟨d, hd, hp, hm⟩
    refine ⟨d, hd, ?_, ?_⟩
    · rw [hget]
      exact hp
    · intro key hk1 hk2
      rw [hget]
      show dictGet (dictSet (dictSet _ "chunk_id" _) "chunk_size" _) key = _
      rw [dictGet_dictSet_other _ "chunk_size" key _ hk2,
        dictGet_dictSet_other _ "chunk_id" key _ hk1, hm]

/-- Witness for C6: a one-document corpus split into a single chunk; the
chunk at position 0 carries `chunk_id = 0`, its size, and the inherited
`source`. -/
theorem process_documents_chunk_metadata_witness :
    dictGet ((process_documents (fun s => [s]) [docW3]).get ⟨0, by decide⟩).metadata
      "chunk_id" = some (.int 0) ∧
    dictGet ((process_documents (fun s => [s]) [docW3]).get ⟨0, by decide⟩).metadata
      "chunk_size" = some (.int
        (((process_documents (fun s => [s]) [docW3]).get ⟨0, by decide⟩).page_content.length)) ∧
    ∃ d ∈ [docW3],
      ((process_documents (fun s => [s]) [docW3]).get ⟨0, by decide⟩).page_content ∈
        (fun s => [s]) d.page_content ∧
      ∀ key : String, key ≠ "chunk_id" → key ≠ "chunk_size" →
        dictGet ((process_documents (fun s => [s]) [docW3]).get ⟨0, by decide⟩).metadata key =
          dictGet d.metadata key :=
  process_documents_chunk_metadata (fun s => [s]) [docW3] 0 (by decide)
